import Mathlib

/-!
Verification of the sorted-table map (`SortedTableMap`) and the flight-booking
layer (`Flight`, `FlightDatabase`) of `src/flight.py`.

The backing store `self._table` is modelled as a `List (Item K V)`; the mutable
operations become pure functions returning the new table (or an `Option` where
the source raises `KeyError`).  Python's arbitrary-precision `int` indices are
modelled by `Int`, and Python's floor division `//` by `Int.fdiv`.  A list
index access `self._table[i]` is modelled by `getD i default`; in every call
reachable from the public operations the index is valid, so the default is
never consulted.
-/

/-- An entry of the table (`MapBase._Item` in the source: fields `_key`,
`_value`); equality and ordering between items are by key alone. -/
structure Item (K V : Type) where
  key : K
  value : V
deriving DecidableEq

instance {K V : Type} [Inhabited K] [Inhabited V] : Inhabited (Item K V) :=
  ⟨⟨default, default⟩⟩

variable {K V : Type}

/-- Embedding of `SortedTableMap._find_index`: recursive binary search over the inclusive
index range `[low, high]`.  Returns `high + 1` when the range is empty;
otherwise compares `k` with the key at `mid = (low + high) // 2` and recurses
on the left half `[low, mid-1]` or the right half `[mid+1, high]`. -/
def find_index [LinearOrder K] [Inhabited K] [Inhabited V]
    (table : List (Item K V)) (k : K) (low high : Int) : Int :=
  if high < low then
    -- no element qualifies
    high + 1
  else
    let mid := (low + high).fdiv 2
    if k = (table.getD mid.toNat default).key then
      -- found exact match
      mid
    else if k < (table.getD mid.toNat default).key then
      -- note: may return mid
      find_index table k low (mid - 1)
    else
      -- answer is right of mid
      find_index table k (mid + 1) high
termination_by (high + 1 - low).toNat
decreasing_by
  · have h2 : (low + high).fdiv 2 = (low + high) / 2 :=
      Int.fdiv_eq_ediv _ (by norm_num)
    omega
  · have h2 : (low + high).fdiv 2 = (low + high) / 2 :=
      Int.fdiv_eq_ediv _ (by norm_num)
    omega

/-- Key of the entry at (integer-valued, in-range) index `i`. -/
def key_at [Inhabited K] [Inhabited V] (t : List (Item K V)) (i : Nat) : K :=
  (t.getD i default).key

/-- Value of the entry at index `i`. -/
def value_at [Inhabited K] [Inhabited V] (t : List (Item K V)) (i : Nat) : V :=
  (t.getD i default).value

/-- Embedding of `SortedTableMap.__getitem__`: locate `j` on the full range; raise
`KeyError` (modelled by `none`) when `j` is out of bounds or the key there
differs from `k`, else return the stored value. -/
def getitem [LinearOrder K] [Inhabited K] [Inhabited V]
    (t : List (Item K V)) (k : K) : Option V :=
  let j := find_index t k 0 ((t.length : Int) - 1)
  if j = (t.length : Int) ∨ key_at t j.toNat ≠ k then
    none
  else
    some (value_at t j.toNat)

/-- Embedding of `SortedTableMap.__setitem__`: locate `j`; on an exact key match reassign
the value of the entry at `j` in place (its key is kept), else insert a new
item at position `j`. -/
def setitem [LinearOrder K] [Inhabited K] [Inhabited V]
    (t : List (Item K V)) (k : K) (v : V) : List (Item K V) :=
  let j := find_index t k 0 ((t.length : Int) - 1)
  if j < (t.length : Int) ∧ key_at t j.toNat = k then
    -- reassign value
    t.set j.toNat ⟨key_at t j.toNat, v⟩
  else
    -- adds new item
    t.insertIdx j.toNat ⟨k, v⟩

/-- Embedding of `SortedTableMap.__delitem__`: locate `j`; raise `KeyError` (modelled by
`none`) when `j` is out of bounds or the key there differs from `k`, else pop
the entry at `j`. -/
def delitem [LinearOrder K] [Inhabited K] [Inhabited V]
    (t : List (Item K V)) (k : K) : Option (List (Item K V)) :=
  let j := find_index t k 0 ((t.length : Int) - 1)
  if j = (t.length : Int) ∨ key_at t j.toNat ≠ k then
    none
  else
    some (t.eraseIdx j.toNat)

/-- Embedding of `SortedTableMap.__iter__`: the keys in storage order (minimum to
maximum). -/
def iter_keys (t : List (Item K V)) : List K :=
  t.map Item.key

/-- Embedding of `SortedTableMap.__reversed__`: the keys of the reversed backing list
(maximum to minimum). -/
def reversed_keys (t : List (Item K V)) : List K :=
  t.reverse.map Item.key

/-- Embedding of `SortedTableMap.find_gt`: locate `j`; skip one position on an exact match
of `k`; return the entry there, or `none` when out of bounds. -/
def find_gt [LinearOrder K] [Inhabited K] [Inhabited V]
    (t : List (Item K V)) (k : K) : Option (K × V) :=
  let j := find_index t k 0 ((t.length : Int) - 1)
  let j := if j < (t.length : Int) ∧ key_at t j.toNat = k then j + 1 else j
  if j < (t.length : Int) then
    some (key_at t j.toNat, value_at t j.toNat)
  else
    none

/-- The loop condition `stop is None or self._table[j]._key < stop` of
`find_range`. -/
def before_stop [LinearOrder K] (stop : Option K) (key : K) : Bool :=
  match stop with
  | none => true
  | some s => key < s

/-- The `while` loop of `SortedTableMap.find_range`: starting at index `j`,
yield entries while in bounds and below `stop`. -/
def range_loop [LinearOrder K] [Inhabited K] [Inhabited V]
    (t : List (Item K V)) (stop : Option K) (j : Nat) : List (K × V) :=
  if j < t.length then
    if before_stop stop (key_at t j) then
      (key_at t j, value_at t j) :: range_loop t stop (j + 1)
    else
      []
  else
    []
termination_by t.length - j

/-- Embedding of `SortedTableMap.find_range`: start the walk at index `0` when `start` is
`None`, else at the locator index of `start`. -/
def find_range [LinearOrder K] [Inhabited K] [Inhabited V]
    (t : List (Item K V)) (start stop : Option K) : List (K × V) :=
  let j : Int :=
    match start with
    | none => 0
    | some s => find_index t s 0 ((t.length : Int) - 1)
  range_loop t stop j.toNat

/-- The lower-bound test `start <= key` (`True` when `start` is `None`),
used only to state the specification of `find_range`. -/
def start_ok [LinearOrder K] (start : Option K) (key : K) : Bool :=
  match start with
  | none => true
  | some s => s ≤ key

/-- Invariants I1/I2 of the spec: the keys of consecutive entries are
strictly increasing (hence all keys are distinct). -/
def TableSorted [LT K] (t : List (Item K V)) : Prop :=
  t.Pairwise (fun a b => a.key < b.key)

instance [LinearOrder K] :
    DecidableRel (fun a b : Item K V => a.key < b.key) :=
  fun a b => inferInstanceAs (Decidable (a.key < b.key))

instance [LinearOrder K] (t : List (Item K V)) : Decidable (TableSorted t) :=
  inferInstanceAs (Decidable (t.Pairwise _))

/-- A mutation of the table: `set k v` is `m[k] = v`, `del k` is
`del m[k]`. -/
inductive Op (K V : Type) where
  | set (k : K) (v : V)
  | del (k : K)

/-- Run one mutation.  A failed `del` raises `KeyError`, which leaves the
table unchanged in the caller's hands. -/
def apply_op [LinearOrder K] [Inhabited K] [Inhabited V]
    (t : List (Item K V)) : Op K V → List (Item K V)
  | .set k v => setitem t k v
  | .del k => (delitem t k).getD t

/-- Run a sequence of mutations left to right. -/
def apply_ops [LinearOrder K] [Inhabited K] [Inhabited V]
    (t : List (Item K V)) (ops : List (Op K V)) : List (Item K V) :=
  ops.foldl apply_op t

/-- The set of keys stored in a table. -/
def key_set [DecidableEq K] (t : List (Item K V)) : Finset K :=
  (t.map Item.key).toFinset

/-- Reference semantics of one mutation on the set of stored keys: `set`
inserts the key, `del` removes it (a no-op when absent, matching the failed
`del` leaving the table unchanged). -/
def op_keys [DecidableEq K] (s : Finset K) : Op K V → Finset K
  | .set k _ => insert k s
  | .del k => s.erase k

/-- Embedding of `MutableMapping.__contains__` as inherited by `SortedTableMap`: try
`__getitem__`, and report whether it succeeded. -/
def contains [LinearOrder K] [Inhabited K] [Inhabited V]
    (t : List (Item K V)) (k : K) : Bool :=
  (getitem t k).isSome

/-- The fields of `Flight` the claims depend on: the four key components and
the two seat counters.  `flight_number`, `duration` and `fare` play no role
in any claim and are omitted.  Seat counters are Python `int`s, modelled by
`Int`. -/
structure Flight where
  origin : String
  destination : String
  date : String
  time : String
  seats_first : Int
  seats_coach : Int
deriving DecidableEq

instance : Inhabited Flight :=
  ⟨⟨"", "", "", "", 0, 0⟩⟩

/-- Embedding of `Flight.book_seat`: decrement the matching counter and return `True` when
it is strictly positive; otherwise return `False` and change nothing.  The
mutation of `self` becomes an explicit returned `Flight`. -/
def book_seat (f : Flight) (class_type : String) : Flight × Bool :=
  if class_type = "first" ∧ f.seats_first > 0 then
    ({ f with seats_first := f.seats_first - 1 }, true)
  else if class_type = "coach" ∧ f.seats_coach > 0 then
    ({ f with seats_coach := f.seats_coach - 1 }, true)
  else
    (f, false)

/-- Embedding of `Flight.cancel_booking`: increment the matching counter unconditionally
and return `True`; for any other `class_type` return `False`. -/
def cancel_booking (f : Flight) (class_type : String) : Flight × Bool :=
  if class_type = "first" then
    ({ f with seats_first := f.seats_first + 1 }, true)
  else if class_type = "coach" then
    ({ f with seats_coach := f.seats_coach + 1 }, true)
  else
    (f, false)

/-- Run a sequence of `book_seat` calls, keeping the evolving `Flight`. -/
def book_seats (f : Flight) (calls : List String) : Flight :=
  calls.foldl (fun g ct => (book_seat g ct).1) f

/-- The key a `FlightDatabase` stores a flight under: the tuple
`(origin, destination, date, time)`.  Python compares tuples
lexicographically, which is the `Lex`-product order on the components. -/
abbrev FKey := Lex (String × Lex (String × Lex (String × String)))

/-- Key expression of `FlightDatabase.add_flight`. -/
def flight_key (f : Flight) : FKey :=
  toLex (f.origin, toLex (f.destination, toLex (f.date, f.time)))

instance : Inhabited FKey :=
  ⟨flight_key default⟩

/-- Embedding of `FlightDatabase.add_flight`: when the key is already present, print a
warning and skip the addition; otherwise store the flight under its key.
(The `int(...)` coercions of the seat counters are identities here, the
counters being modelled as `Int` already.) -/
def add_flight (db : List (Item FKey Flight)) (f : Flight) :
    List (Item FKey Flight) :=
  if contains db (flight_key f) then
    -- duplicate flight found: skip addition
    db
  else
    setitem db (flight_key f) f

/-- Example table used by the concrete witnesses. -/
def Wt : List (Item Int Int) := [⟨1, 10⟩, ⟨3, 30⟩]

/-- Example flight used by the concrete witnesses. -/
def Wf : Flight := ⟨"LAX", "SFO", "09May", "14:45", 2, 3⟩

/-- Example database used by the concrete witnesses. -/
def Wdb : List (Item FKey Flight) := [⟨flight_key Wf, Wf⟩]

theorem key_at_eq [Inhabited K] [Inhabited V] {t : List (Item K V)} {i : Nat}
    (h : i < t.length) : key_at t i = t[i].key := by
  simp [key_at, List.getD_eq_getElem?_getD, List.getElem?_eq_getElem h]

theorem sorted_key_lt [LinearOrder K] [Inhabited K] [Inhabited V]
    {t : List (Item K V)} (hs : TableSorted t) {i j : Nat}
    (hij : i < j) (hj : j < t.length) : key_at t i < key_at t j := by
  have hi : i < t.length := lt_trans hij hj
  rw [key_at_eq hi, key_at_eq hj]
  exact List.pairwise_iff_getElem.mp hs i j hi hj hij

theorem sorted_key_le [LinearOrder K] [Inhabited K] [Inhabited V]
    {t : List (Item K V)} (hs : TableSorted t) {i j : Nat}
    (hij : i ≤ j) (hj : j < t.length) : key_at t i ≤ key_at t j := by
  rcases Nat.lt_or_ge i j with h | h
  · exact le_of_lt (sorted_key_lt hs h hj)
  · have : i = j := le_antisymm hij h
    rw [this]

theorem find_index_base [LinearOrder K] [Inhabited K] [Inhabited V]
    (t : List (Item K V)) (k : K) {low high : Int} (hlt : high < low) :
    find_index t k low high = high + 1 := by
  rw [find_index.eq_def, if_pos hlt]

theorem find_index_step [LinearOrder K] [Inhabited K] [Inhabited V]
    (t : List (Item K V)) (k : K) {low high : Int} (hlt : ¬ high < low) :
    find_index t k low high =
      if k = key_at t ((low + high).fdiv 2).toNat then (low + high).fdiv 2
      else if k < key_at t ((low + high).fdiv 2).toNat then
        find_index t k low ((low + high).fdiv 2 - 1)
      else
        find_index t k ((low + high).fdiv 2 + 1) high := by
  rw [find_index.eq_def, if_neg hlt]
  rfl

theorem find_index_spec_aux [LinearOrder K] [Inhabited K] [Inhabited V]
    (t : List (Item K V)) (hs : TableSorted t) (k : K) :
    ∀ (n : Nat) (low high : Int), (high + 1 - low).toNat ≤ n →
      0 ≤ low → low ≤ high + 1 → high < (t.length : Int) →
      (∀ i : Nat, (i : Int) < low → i < t.length → key_at t i < k) →
      (∀ i : Nat, high < (i : Int) → i < t.length → k ≤ key_at t i) →
      low ≤ find_index t k low high ∧ find_index t k low high ≤ high + 1 ∧
      (∀ i : Nat, (i : Int) < find_index t k low high → i < t.length →
        key_at t i < k) ∧
      (∀ i : Nat, find_index t k low high ≤ (i : Int) → i < t.length →
        k ≤ key_at t i) := by
  intro n
  induction n with
  | zero =>
    intro low high hm h0 hb hlen hleft hright
    have hlt : high < low := by omega
    rw [find_index_base t k hlt]
    exact ⟨by omega, le_refl _, fun i hi hi' => hleft i (by omega) hi',
           fun i hi hi' => hright i (by omega) hi'⟩
  | succ n ih =>
    intro low high hm h0 hb hlen hleft hright
    by_cases hlt : high < low
    · rw [find_index_base t k hlt]
      exact ⟨by omega, le_refl _, fun i hi hi' => hleft i (by omega) hi',
             fun i hi hi' => hright i (by omega) hi'⟩
    · have hlh : low ≤ high := le_of_not_lt hlt
      have hmid2 : (low + high).fdiv 2 = (low + high) / 2 :=
        Int.fdiv_eq_ediv _ (by norm_num)
      set mid := (low + high).fdiv 2 with hmiddef
      have hmlow : low ≤ mid := by omega
      have hmhigh : mid ≤ high := by omega
      have hmidnat : (mid.toNat : Int) = mid := Int.toNat_of_nonneg (by omega)
      have hmidlt : mid.toNat < t.length := by omega
      rw [find_index_step t k hlt]
      rw [← hmiddef]
      by_cases heq : k = key_at t mid.toNat
      · rw [if_pos heq]
        refine ⟨hmlow, by omega, ?_, ?_⟩
        · intro i hi hi'
          by_cases hilow : (i : Int) < low
          · exact hleft i hilow hi'
          · have : i < mid.toNat := by omega
            calc key_at t i < key_at t mid.toNat := sorted_key_lt hs this hmidlt
              _ = k := heq.symm
        · intro i hi hi'
          have : mid.toNat ≤ i := by omega
          calc k = key_at t mid.toNat := heq
            _ ≤ key_at t i := sorted_key_le hs this hi'
      · rw [if_neg heq]
        by_cases hklt : k < key_at t mid.toNat
        · rw [if_pos hklt]
          have hr : ∀ i : Nat, mid - 1 < (i : Int) → i < t.length →
              k ≤ key_at t i := by
            intro i hi hi'
            have : mid.toNat ≤ i := by omega
            calc k ≤ key_at t mid.toNat := le_of_lt hklt
              _ ≤ key_at t i := sorted_key_le hs this hi'
          obtain ⟨h1, h2, h3, h4⟩ := ih low (mid - 1) (by omega) h0 (by omega) (by omega) hleft hr
          exact ⟨h1, by omega, h3, h4⟩
        · rw [if_neg hklt]
          have hkgt : key_at t mid.toNat < k :=
            lt_of_le_of_ne (le_of_not_lt hklt) (fun h => heq h.symm)
          have hl : ∀ i : Nat, (i : Int) < mid + 1 → i < t.length →
              key_at t i < k := by
            intro i hi hi'
            have : i ≤ mid.toNat := by omega
            calc key_at t i ≤ key_at t mid.toNat := sorted_key_le hs this hmidlt
              _ < k := hkgt
          obtain ⟨h1, h2, h3, h4⟩ := ih (mid + 1) high (by omega) (by omega) (by omega) hlen hl hright
          exact ⟨by omega, h2, h3, h4⟩

theorem find_index_full [LinearOrder K] [Inhabited K] [Inhabited V]
    (t : List (Item K V)) (hs : TableSorted t) (k : K) :
    0 ≤ find_index t k 0 ((t.length : Int) - 1) ∧
    find_index t k 0 ((t.length : Int) - 1) ≤ (t.length : Int) ∧
    (∀ i : Nat, (i : Int) < find_index t k 0 ((t.length : Int) - 1) →
      i < t.length → key_at t i < k) ∧
    (∀ i : Nat, find_index t k 0 ((t.length : Int) - 1) ≤ (i : Int) →
      i < t.length → k ≤ key_at t i) := by
  obtain ⟨h1, h2, h3, h4⟩ := find_index_spec_aux t hs k
    ((t.length : Int) - 1 + 1 - 0).toNat 0 ((t.length : Int) - 1) (le_refl _)
    (by omega) (by omega) (by omega)
    (fun i hi _ => absurd hi (by omega))
    (fun i hi hi' => absurd hi (by omega))
  exact ⟨h1, by omega, h3, h4⟩

theorem sorted_key_inj [LinearOrder K] [Inhabited K] [Inhabited V]
    {t : List (Item K V)} (hs : TableSorted t) {i j : Nat}
    (hi : i < t.length) (hj : j < t.length)
    (h : key_at t i = key_at t j) : i = j := by
  rcases Nat.lt_trichotomy i j with hlt | heq | hgt
  · exact absurd h (ne_of_lt (sorted_key_lt hs hlt hj))
  · exact heq
  · exact absurd h.symm (ne_of_lt (sorted_key_lt hs hgt hi))

theorem mem_iter_keys_iff [Inhabited K] [Inhabited V]
    {t : List (Item K V)} {k : K} :
    k ∈ iter_keys t ↔ ∃ i, ∃ _ : i < t.length, key_at t i = k := by
  constructor
  · intro h
    obtain ⟨it, hit, hk⟩ := List.mem_map.mp h
    obtain ⟨i, hi, heq⟩ := List.mem_iff_getElem.mp hit
    exact ⟨i, hi, by rw [key_at_eq hi, heq, hk]⟩
  · rintro ⟨i, hi, hk⟩
    exact List.mem_map.mpr ⟨t[i], List.getElem_mem hi, by rw [← key_at_eq hi, hk]⟩

theorem found_iff [LinearOrder K] [Inhabited K] [Inhabited V]
    {t : List (Item K V)} (hs : TableSorted t) (k : K) :
    k ∈ iter_keys t ↔
      (find_index t k 0 ((t.length : Int) - 1) < (t.length : Int) ∧
       key_at t (find_index t k 0 ((t.length : Int) - 1)).toNat = k) := by
  obtain ⟨h0, hlen, hlt, hge⟩ := find_index_full t hs k
  set j := find_index t k 0 ((t.length : Int) - 1) with hj
  constructor
  · intro hmem
    obtain ⟨i, hi, hk⟩ := mem_iter_keys_iff.mp hmem
    have hji : j ≤ (i : Int) := by
      by_contra hc
      exact absurd hk (ne_of_lt (hlt i (by omega) hi))
    have hjlen : j < (t.length : Int) := by omega
    refine ⟨hjlen, ?_⟩
    have h1 : k ≤ key_at t j.toNat := hge j.toNat (by omega) (by omega)
    have h2 : key_at t j.toNat ≤ key_at t i :=
      sorted_key_le hs (by omega) hi
    rw [hk] at h2
    exact le_antisymm h2 h1
  · rintro ⟨hjlen, hk⟩
    exact mem_iter_keys_iff.mpr ⟨j.toNat, by omega, hk⟩

theorem getitem_none_iff [LinearOrder K] [Inhabited K] [Inhabited V]
    {t : List (Item K V)} (hs : TableSorted t) (k : K) :
    getitem t k = none ↔ k ∉ iter_keys t := by
  obtain ⟨h0, hlen, _, _⟩ := find_index_full t hs k
  rw [found_iff hs k]
  simp only [getitem]
  by_cases hc : find_index t k 0 ((t.length : Int) - 1) = (t.length : Int) ∨
      key_at t (find_index t k 0 ((t.length : Int) - 1)).toNat ≠ k
  · simp only [if_pos hc]
    simp only [true_iff]
    intro ⟨hlt, hk⟩
    rcases hc with h | h
    · omega
    · exact h hk
  · rw [if_neg hc]
    push_neg at hc
    exact iff_of_false (Option.some_ne_none _) (not_not_intro ⟨by omega, hc.2⟩)

theorem value_at_eq [Inhabited K] [Inhabited V] {t : List (Item K V)} {i : Nat}
    (h : i < t.length) : value_at t i = t[i].value := by
  simp [value_at, List.getD_eq_getElem?_getD, List.getElem?_eq_getElem h]

theorem getitem_eq_value [LinearOrder K] [Inhabited K] [Inhabited V]
    {t : List (Item K V)} (hs : TableSorted t) {k : K} {i : Nat}
    (hi : i < t.length) (hk : key_at t i = k) :
    getitem t k = some (value_at t i) := by
  have hmem : k ∈ iter_keys t := mem_iter_keys_iff.mpr ⟨i, hi, hk⟩
  obtain ⟨hjlen, hjk⟩ := (found_iff hs k).mp hmem
  obtain ⟨h0, hlen, _, _⟩ := find_index_full t hs k
  have hij : i = (find_index t k 0 ((t.length : Int) - 1)).toNat :=
    sorted_key_inj hs hi (by omega) (by rw [hk, hjk])
  simp only [getitem]
  rw [if_neg (by push_neg; exact ⟨by omega, hjk⟩), hij]

theorem getitem_of_getElem [LinearOrder K] [Inhabited K] [Inhabited V]
    {t : List (Item K V)} (hs : TableSorted t) {k : K} {v : V} {i : Nat}
    (hi : i < t.length) (heq : t[i] = ⟨k, v⟩) :
    getitem t k = some v := by
  have hk : key_at t i = k := by rw [key_at_eq hi, heq]
  rw [getitem_eq_value hs hi hk, value_at_eq hi, heq]

theorem setitem_found [LinearOrder K] [Inhabited K] [Inhabited V]
    {t : List (Item K V)} (hs : TableSorted t) {k : K} (v : V)
    (hmem : k ∈ iter_keys t) :
    setitem t k v =
      t.set (find_index t k 0 ((t.length : Int) - 1)).toNat ⟨k, v⟩ := by
  obtain ⟨hjlen, hjk⟩ := (found_iff hs k).mp hmem
  simp only [setitem]
  rw [if_pos ⟨hjlen, hjk⟩, hjk]

theorem setitem_new [LinearOrder K] [Inhabited K] [Inhabited V]
    {t : List (Item K V)} (hs : TableSorted t) {k : K} (v : V)
    (hmem : k ∉ iter_keys t) :
    setitem t k v =
      t.insertIdx (find_index t k 0 ((t.length : Int) - 1)).toNat ⟨k, v⟩ := by
  simp only [setitem]
  rw [if_neg]
  intro ⟨h1, h2⟩
  exact hmem ((found_iff hs k).mpr ⟨h1, h2⟩)

theorem tableSorted_set_value [LinearOrder K] [Inhabited K] [Inhabited V]
    {t : List (Item K V)} (hs : TableSorted t) {m : Nat} (hm : m < t.length)
    {k : K} {v : V} (hk : key_at t m = k) :
    TableSorted (t.set m ⟨k, v⟩) := by
  rw [TableSorted, List.pairwise_iff_getElem] at hs ⊢
  intro i j hi hj hij
  simp only [List.length_set] at hi hj
  simp only [List.getElem_set]
  by_cases h1 : m = i
  · by_cases h2 : m = j
    · omega
    · simp only [if_pos h1, if_neg h2]
      show k < t[j].key
      rw [← key_at_eq hj, ← hk]
      exact sorted_key_lt (List.pairwise_iff_getElem.mpr hs) (h1 ▸ hij) hj
  · by_cases h2 : m = j
    · simp only [if_neg h1, if_pos h2]
      show t[i].key < k
      rw [← key_at_eq hi, ← hk]
      exact sorted_key_lt (List.pairwise_iff_getElem.mpr hs) (h2 ▸ hij) hm
    · simp only [if_neg h1, if_neg h2]
      exact hs i j hi hj hij

theorem tableSorted_insertIdx [LinearOrder K] {k : K} {v : V} :
    ∀ (t : List (Item K V)) (m : Nat), TableSorted t → m ≤ t.length →
      (∀ i (_ : i < t.length), i < m → t[i].key < k) →
      (∀ i (_ : i < t.length), m ≤ i → k < t[i].key) →
      TableSorted (t.insertIdx m ⟨k, v⟩)
  | t, 0, hs, _, _, ha => by
    rw [List.insertIdx_zero, TableSorted, List.pairwise_cons]
    refine ⟨?_, hs⟩
    intro b hb'
    obtain ⟨i, hi, heq⟩ := List.mem_iff_getElem.mp hb'
    have := ha i hi (Nat.zero_le i)
    rw [heq] at this
    exact this
  | [], m + 1, _, hm, _, _ => by
    simp at hm
  | a :: l, m + 1, hs, hm, hb, ha => by
    rw [List.insertIdx_succ_cons]
    rw [TableSorted, List.pairwise_cons] at hs ⊢
    obtain ⟨hrel, hl⟩ := hs
    have hml : m ≤ l.length := by simpa using hm
    constructor
    · intro b hb'
      rcases (List.mem_insertIdx hml).mp hb' with rfl | hbl
      · simpa using hb 0 (by simp) (Nat.succ_pos m)
      · exact hrel b hbl
    · refine tableSorted_insertIdx l m hl hml ?_ ?_
      · intro i hi him
        simpa using hb (i + 1) (by simpa using hi) (by omega)
      · intro i hi him
        simpa using ha (i + 1) (by simpa using hi) (by omega)

theorem map_insertIdx (f : α → β) :
    ∀ (n : Nat) (a : α) (l : List α),
      (l.insertIdx n a).map f = (l.map f).insertIdx n (f a)
  | 0, _, _ => rfl
  | _ + 1, _, [] => rfl
  | n + 1, a, b :: l => by
    simp only [List.insertIdx_succ_cons, List.map_cons, map_insertIdx f n a l]

theorem setitem_sorted [LinearOrder K] [Inhabited K] [Inhabited V]
    {t : List (Item K V)} (hs : TableSorted t) (k : K) (v : V) :
    TableSorted (setitem t k v) := by
  obtain ⟨h0, hlen, hlt, hge⟩ := find_index_full t hs k
  by_cases hmem : k ∈ iter_keys t
  · obtain ⟨hjlen, hjk⟩ := (found_iff hs k).mp hmem
    rw [setitem_found hs v hmem]
    exact tableSorted_set_value hs (by omega) hjk
  · rw [setitem_new hs v hmem]
    refine tableSorted_insertIdx t _ hs (by omega) ?_ ?_
    · intro i hi him
      rw [← key_at_eq hi]
      exact hlt i (by omega) hi
    · intro i hi him
      rw [← key_at_eq hi]
      refine lt_of_le_of_ne (hge i (by omega) hi) ?_
      intro hkk
      exact hmem (mem_iter_keys_iff.mpr ⟨i, hi, hkk.symm⟩)

theorem iter_keys_set [Inhabited K] [Inhabited V]
    {t : List (Item K V)} {m : Nat} (hm : m < t.length) {k : K} {v : V}
    (hk : key_at t m = k) :
    iter_keys (t.set m ⟨k, v⟩) = iter_keys t := by
  unfold iter_keys
  rw [List.map_set]
  apply List.ext_getElem
  · simp
  · intro i hi hi'
    simp only [List.getElem_set]
    by_cases h : m = i
    · subst h
      rw [if_pos rfl]
      have hgm : (List.map Item.key t)[m] = k := by
        rw [List.getElem_map, ← key_at_eq hm, hk]
      exact hgm.symm
    · rw [if_neg h]

theorem length_setitem [LinearOrder K] [Inhabited K] [Inhabited V]
    {t : List (Item K V)} (hs : TableSorted t) (k : K) (v : V) :
    (setitem t k v).length =
      if k ∈ iter_keys t then t.length else t.length + 1 := by
  obtain ⟨h0, hlen, _, _⟩ := find_index_full t hs k
  by_cases hmem : k ∈ iter_keys t
  · rw [setitem_found hs v hmem, if_pos hmem, List.length_set]
  · rw [setitem_new hs v hmem, if_neg hmem,
      List.length_insertIdx _ _ (by omega)]

theorem key_set_setitem [LinearOrder K] [DecidableEq K] [Inhabited K] [Inhabited V]
    {t : List (Item K V)} (hs : TableSorted t) (k : K) (v : V) :
    key_set (setitem t k v) = insert k (key_set t) := by
  obtain ⟨h0, hlen, _, _⟩ := find_index_full t hs k
  by_cases hmem : k ∈ iter_keys t
  · obtain ⟨hjlen, hjk⟩ := (found_iff hs k).mp hmem
    rw [key_set, setitem_found hs v hmem]
    have : iter_keys (t.set (find_index t k 0 ((t.length : Int) - 1)).toNat
        ⟨k, v⟩) = iter_keys t := iter_keys_set (by omega) hjk
    rw [show (t.set (find_index t k 0 ((t.length : Int) - 1)).toNat
        ⟨k, v⟩).map Item.key = iter_keys t from this]
    rw [Finset.insert_eq_self.mpr]
    · rfl
    · exact List.mem_toFinset.mpr hmem
  · rw [key_set, setitem_new hs v hmem]
    rw [show (t.insertIdx (find_index t k 0 ((t.length : Int) - 1)).toNat
        ⟨k, v⟩).map Item.key = (t.map Item.key).insertIdx
        (find_index t k 0 ((t.length : Int) - 1)).toNat k from
      map_insertIdx Item.key _ _ t]
    ext x
    simp only [List.mem_toFinset, Finset.mem_insert]
    rw [List.mem_insertIdx (by simpa using (by omega : (find_index t k 0
      ((t.length : Int) - 1)).toNat ≤ t.length))]
    simp [key_set]

theorem delitem_none_iff [LinearOrder K] [Inhabited K] [Inhabited V]
    {t : List (Item K V)} (hs : TableSorted t) (k : K) :
    delitem t k = none ↔ k ∉ iter_keys t := by
  obtain ⟨h0, hlen, _, _⟩ := find_index_full t hs k
  rw [found_iff hs k]
  simp only [delitem]
  by_cases hc : find_index t k 0 ((t.length : Int) - 1) = (t.length : Int) ∨
      key_at t (find_index t k 0 ((t.length : Int) - 1)).toNat ≠ k
  · rw [if_pos hc]
    refine iff_of_true rfl ?_
    intro ⟨hlt, hk⟩
    rcases hc with h | h
    · omega
    · exact h hk
  · rw [if_neg hc]
    push_neg at hc
    exact iff_of_false (Option.some_ne_none _) (not_not_intro ⟨by omega, hc.2⟩)

theorem delitem_found [LinearOrder K] [Inhabited K] [Inhabited V]
    {t : List (Item K V)} (hs : TableSorted t) {k : K}
    (hmem : k ∈ iter_keys t) :
    delitem t k =
      some (t.eraseIdx (find_index t k 0 ((t.length : Int) - 1)).toNat) := by
  obtain ⟨hjlen, hjk⟩ := (found_iff hs k).mp hmem
  obtain ⟨h0, hlen, _, _⟩ := find_index_full t hs k
  simp only [delitem]
  rw [if_neg (by push_neg; exact ⟨by omega, hjk⟩)]

theorem tableSorted_eraseIdx [LinearOrder K]
    {t : List (Item K V)} (hs : TableSorted t) (m : Nat) :
    TableSorted (t.eraseIdx m) :=
  hs.sublist (List.eraseIdx_sublist t m)

theorem key_set_eraseIdx [LinearOrder K] [DecidableEq K] [Inhabited K] [Inhabited V]
    {t : List (Item K V)} (hs : TableSorted t) {m : Nat} (hm : m < t.length)
    {k : K} (hk : key_at t m = k) :
    key_set (t.eraseIdx m) = (key_set t).erase k := by
  ext x
  simp only [key_set, List.mem_toFinset, Finset.mem_erase]
  constructor
  · intro hx
    obtain ⟨it, hit, rfl⟩ := List.mem_map.mp hx
    obtain ⟨i, hi, hne, heq⟩ := List.mem_eraseIdx_iff_getElem.mp hit
    refine ⟨?_, List.mem_map.mpr ⟨it, List.mem_of_mem_eraseIdx hit, rfl⟩⟩
    intro hkk
    apply hne
    apply sorted_key_inj hs hi hm
    rw [key_at_eq hi, heq, hkk, hk]
  · intro ⟨hne, hx⟩
    obtain ⟨it, hit, rfl⟩ := List.mem_map.mp hx
    obtain ⟨i, hi, heq⟩ := List.mem_iff_getElem.mp hit
    refine List.mem_map.mpr ⟨it, List.mem_eraseIdx_iff_getElem.mpr
      ⟨i, hi, ?_, heq⟩, rfl⟩
    intro him
    apply hne
    rw [← heq, ← key_at_eq hi, him, hk]

theorem keys_nodup [LinearOrder K] {t : List (Item K V)}
    (hs : TableSorted t) : (t.map Item.key).Nodup := by
  have : (t.map Item.key).Pairwise (· < ·) :=
    hs.map Item.key (fun _ _ h => h)
  exact this.imp ne_of_lt

theorem length_eq_card_key_set [LinearOrder K] [DecidableEq K]
    {t : List (Item K V)} (hs : TableSorted t) :
    t.length = (key_set t).card := by
  rw [key_set, List.card_toFinset, List.dedup_eq_self.mpr (keys_nodup hs),
    List.length_map]

theorem apply_op_inv [LinearOrder K] [DecidableEq K] [Inhabited K] [Inhabited V]
    {t : List (Item K V)} (hs : TableSorted t) (op : Op K V) :
    TableSorted (apply_op t op) ∧
      key_set (apply_op t op) = op_keys (key_set t) op := by
  cases op with
  | set k v =>
    exact ⟨setitem_sorted hs k v, key_set_setitem hs k v⟩
  | del k =>
    by_cases hmem : k ∈ iter_keys t
    · obtain ⟨hjlen, hjk⟩ := (found_iff hs k).mp hmem
      obtain ⟨h0, hlen, _, _⟩ := find_index_full t hs k
      simp only [apply_op, delitem_found hs hmem, Option.getD_some]
      exact ⟨tableSorted_eraseIdx hs _,
        key_set_eraseIdx hs (by omega) hjk⟩
    · simp only [apply_op, (delitem_none_iff hs k).mpr hmem, Option.getD_none]
      refine ⟨hs, ?_⟩
      rw [op_keys, Finset.erase_eq_self.mpr]
      intro hx
      exact hmem (List.mem_toFinset.mp hx)

theorem apply_ops_inv [LinearOrder K] [DecidableEq K] [Inhabited K] [Inhabited V] :
    ∀ (ops : List (Op K V)) (t : List (Item K V)), TableSorted t →
      TableSorted (apply_ops t ops) ∧
        key_set (apply_ops t ops) = ops.foldl op_keys (key_set t)
  | [], t, hs => ⟨hs, rfl⟩
  | op :: ops, t, hs => by
    obtain ⟨h1, h2⟩ := apply_op_inv hs op
    obtain ⟨h3, h4⟩ := apply_ops_inv ops (apply_op t op) h1
    refine ⟨h3, ?_⟩
    rw [List.foldl_cons, ← h2]
    exact h4

/-- Claim C1: on a table whose keys are strictly ascending (I1, I2), the locator
called on the full range `[0, len-1]` returns the unique boundary index `j`:
all entries before `j` have keys `< k`, all entries from `j` on have keys
`≥ k`; and whenever `high < low` it returns `high + 1` immediately. -/
theorem C1_find_index_locates [LinearOrder K] [Inhabited K] [Inhabited V]
    (t : List (Item K V)) (hs : TableSorted t) (k : K) :
    (∀ low high : Int, high < low → find_index t k low high = high + 1) ∧
    (0 ≤ find_index t k 0 ((t.length : Int) - 1) ∧
     find_index t k 0 ((t.length : Int) - 1) ≤ (t.length : Int) ∧
     (∀ i : Nat, (i : Int) < find_index t k 0 ((t.length : Int) - 1) →
       i < t.length → key_at t i < k) ∧
     (∀ i : Nat, find_index t k 0 ((t.length : Int) - 1) ≤ (i : Int) →
       i < t.length → k ≤ key_at t i)) ∧
    (∀ j' : Int, 0 ≤ j' → j' ≤ (t.length : Int) →
      (∀ i : Nat, (i : Int) < j' → i < t.length → key_at t i < k) →
      (∀ i : Nat, j' ≤ (i : Int) → i < t.length → k ≤ key_at t i) →
      j' = find_index t k 0 ((t.length : Int) - 1)) := by
  obtain ⟨h0, hlen, hlt, hge⟩ := find_index_full t hs k
  refine ⟨fun low high h => find_index_base t k h, ⟨h0, hlen, hlt, hge⟩, ?_⟩
  intro j' h0' hlen' hlt' hge'
  set j := find_index t k 0 ((t.length : Int) - 1) with hj
  rcases lt_trichotomy j' j with h | h | h
  · exfalso
    have hi : j'.toNat < t.length := by omega
    have h1 : key_at t j'.toNat < k := hlt j'.toNat (by omega) hi
    have h2 : k ≤ key_at t j'.toNat := hge' j'.toNat (by omega) hi
    exact absurd h1 (not_lt.mpr h2)
  · exact h
  · exfalso
    have hi : j.toNat < t.length := by omega
    have h1 : key_at t j.toNat < k := hlt' j.toNat (by omega) hi
    have h2 : k ≤ key_at t j.toNat := hge j.toNat (by omega) hi
    exact absurd h1 (not_lt.mpr h2)

/-- Claim C2: from a sorted table, any sequence of `set`/`del` operations keeps
the keys strictly ascending and unique; the resulting length is the number of
distinct keys currently stored (the reference fold that inserts on `set` and
erases on `del`); `set` on a present key rewrites the located entry in place,
preserving the key sequence and length, and `set` on an absent key inserts
exactly one entry at the locator index. -/
theorem C2_invariants_preserved [LinearOrder K] [DecidableEq K]
    [Inhabited K] [Inhabited V]
    (t : List (Item K V)) (hs : TableSorted t) (ops : List (Op K V)) :
    TableSorted (apply_ops t ops) ∧
    key_set (apply_ops t ops) = ops.foldl op_keys (key_set t) ∧
    (apply_ops t ops).length = (ops.foldl op_keys (key_set t)).card ∧
    (∀ k v, k ∈ iter_keys t →
      setitem t k v =
        t.set (find_index t k 0 ((t.length : Int) - 1)).toNat ⟨k, v⟩ ∧
      iter_keys (setitem t k v) = iter_keys t ∧
      (setitem t k v).length = t.length) ∧
    (∀ k v, k ∉ iter_keys t →
      setitem t k v =
        t.insertIdx (find_index t k 0 ((t.length : Int) - 1)).toNat ⟨k, v⟩ ∧
      (setitem t k v).length = t.length + 1) := by
  obtain ⟨h1, h2⟩ := apply_ops_inv ops t hs
  refine ⟨h1, h2, ?_, ?_, ?_⟩
  · rw [← h2]
    exact length_eq_card_key_set h1
  · intro k v hmem
    obtain ⟨hjlen, hjk⟩ := (found_iff hs k).mp hmem
    obtain ⟨h0, hlen, _, _⟩ := find_index_full t hs k
    refine ⟨setitem_found hs v hmem, ?_, ?_⟩
    · rw [setitem_found hs v hmem]
      exact iter_keys_set (by omega) hjk
    · rw [length_setitem hs k v, if_pos hmem]
  · intro k v hmem
    refine ⟨setitem_new hs v hmem, ?_⟩
    rw [length_setitem hs k v, if_neg hmem]

/-- Claim C3: on a sorted table, `set(k, v)` followed by `get(k)` returns `v`. -/
theorem C3_set_get_roundtrip [LinearOrder K] [Inhabited K] [Inhabited V]
    (t : List (Item K V)) (hs : TableSorted t) (k : K) (v : V) :
    getitem (setitem t k v) k = some v := by
  have hs' : TableSorted (setitem t k v) := setitem_sorted hs k v
  obtain ⟨h0, hlen, _, _⟩ := find_index_full t hs k
  by_cases hmem : k ∈ iter_keys t
  · obtain ⟨hjlen, hjk⟩ := (found_iff hs k).mp hmem
    rw [setitem_found hs v hmem] at hs' ⊢
    refine getitem_of_getElem hs' (i := (find_index t k 0
      ((t.length : Int) - 1)).toNat) (by simp; omega) ?_
    rw [List.getElem_set]
    simp
  · rw [setitem_new hs v hmem] at hs' ⊢
    refine getitem_of_getElem hs' (i := (find_index t k 0
      ((t.length : Int) - 1)).toNat) ?_ ?_
    · rw [List.length_insertIdx _ _ (by omega)]
      omega
    · exact List.getElem_insertIdx_self t ⟨k, v⟩ _ (by omega)

/-- Claim C4: on a sorted table, `get(k)` and `del(k)` fail with `KeyNotFound`
exactly when no entry has key `k`, and a failed `del` leaves the table the
caller holds unchanged. -/
theorem C4_failure_iff_absent [LinearOrder K] [Inhabited K] [Inhabited V]
    (t : List (Item K V)) (hs : TableSorted t) (k : K) :
    (getitem t k = none ↔ k ∉ iter_keys t) ∧
    (delitem t k = none ↔ k ∉ iter_keys t) ∧
    (delitem t k = none → apply_op t (Op.del k) = t) := by
  refine ⟨getitem_none_iff hs k, delitem_none_iff hs k, ?_⟩
  intro h
  simp [apply_op, h]

/-- Claim C7: on a sorted table, descending iteration is the exact reverse of
ascending iteration, and ascending iteration yields the keys in strictly
increasing order. -/
theorem C7_iteration_orders [LinearOrder K]
    (t : List (Item K V)) (hs : TableSorted t) :
    reversed_keys t = (iter_keys t).reverse ∧
    (iter_keys t).Sorted (· < ·) := by
  constructor
  · rw [reversed_keys, iter_keys, List.map_reverse]
  · exact hs.map Item.key (fun _ _ h => h)

theorem range_loop_spec [LinearOrder K] [Inhabited K] [Inhabited V]
    {t : List (Item K V)} (hs : TableSorted t) (stop : Option K) :
    ∀ (n j : Nat), t.length - j ≤ n →
      range_loop t stop j =
        ((t.drop j).filter (fun it => before_stop stop it.key)).map
          (fun it => (it.key, it.value)) := by
  intro n
  induction n with
  | zero =>
    intro j hm
    have hj : ¬ j < t.length := by omega
    rw [range_loop.eq_def, if_neg hj,
      List.drop_eq_nil_iff.mpr (by omega)]
    rfl
  | succ n ih =>
    intro j hm
    by_cases hj : j < t.length
    · rw [List.drop_eq_getElem_cons hj, List.filter_cons]
      by_cases hp : before_stop stop (key_at t j) = true
      · rw [range_loop.eq_def, if_pos hj, if_pos hp]
        rw [if_pos (show (fun it => before_stop stop it.key) t[j] = true by
          simpa [← key_at_eq hj] using hp)]
        rw [List.map_cons, ih (j + 1) (by omega)]
        rw [key_at_eq hj, value_at_eq hj]
      · rw [range_loop.eq_def, if_pos hj, if_neg hp]
        rw [if_neg (show ¬ (fun it => before_stop stop it.key) t[j] = true by
          simpa [← key_at_eq hj] using hp)]
        symm
        rw [List.map_eq_nil_iff, List.filter_eq_nil_iff]
        intro a ha
        obtain ⟨i, hilen, heq⟩ := List.mem_drop_iff_getElem.mp ha
        simp only [Bool.not_eq_true]
        cases hst : stop with
        | none =>
          simp [hst, before_stop] at hp
        | some s =>
          simp only [hst, before_stop] at hp
          have h1 : ¬ key_at t j < s := by simpa using hp
          have h2 : key_at t j ≤ key_at t (j + 1 + i) :=
            sorted_key_le hs (by omega) (by omega)
          have h3 : a.key = key_at t (j + 1 + i) := by
            rw [key_at_eq (by omega : j + 1 + i < t.length), heq]
          show decide (a.key < s) = false
          simp only [decide_eq_false_iff_not, h3]
          intro hlt
          exact h1 (lt_of_le_of_lt h2 hlt)
    · rw [range_loop.eq_def, if_neg hj,
        List.drop_eq_nil_iff.mpr (by omega)]
      rfl

theorem find_range_eq [LinearOrder K] [Inhabited K] [Inhabited V]
    {t : List (Item K V)} (hs : TableSorted t) (start stop : Option K) :
    find_range t start stop =
      (t.filter (fun it => start_ok start it.key && before_stop stop it.key)).map
        (fun it => (it.key, it.value)) := by
  cases start with
  | none =>
    simp only [find_range]
    rw [range_loop_spec hs stop t.length (0 : Int).toNat (by simp)]
    rw [show (0 : Int).toNat = 0 from rfl, List.drop_zero]
    rfl
  | some s =>
    obtain ⟨h0, hlen, hlt, hge⟩ := find_index_full t hs s
    simp only [find_range]
    rw [range_loop_spec hs stop t.length _ (by omega)]
    set m := (find_index t s 0 ((t.length : Int) - 1)).toNat with hm
    conv_rhs => rw [← List.take_append_drop m t]
    rw [List.filter_append, List.map_append]
    have htake : (t.take m).filter
        (fun it => start_ok (some s) it.key && before_stop stop it.key) = [] := by
      rw [List.filter_eq_nil_iff]
      intro a ha
      obtain ⟨i, him, heq⟩ := List.mem_take_iff_getElem.mp ha
      have hi : i < t.length := lt_of_lt_of_le him (min_le_right _ _)
      have hik : key_at t i < s := hlt i (by omega) hi
      have hak : a.key = key_at t i := by rw [key_at_eq hi, heq]
      simp only [Bool.and_eq_true, not_and]
      intro hstart
      exfalso
      have : s ≤ a.key := by simpa [start_ok] using hstart
      rw [hak] at this
      exact absurd hik (not_lt.mpr this)
    rw [htake, List.map_nil, List.nil_append]
    congr 1
    apply List.filter_congr
    intro a ha
    obtain ⟨i, him, heq⟩ := List.mem_drop_iff_getElem.mp ha
    have hia : m + i < t.length := by omega
    have hsk : s ≤ key_at t (m + i) := hge (m + i) (by omega) hia
    have hak : a.key = key_at t (m + i) := by rw [key_at_eq hia, heq]
    show before_stop stop a.key = (start_ok (some s) a.key && before_stop stop a.key)
    have : start_ok (some s) a.key = true := by
      show decide (s ≤ a.key) = true
      rw [hak]
      simpa using hsk
    rw [this, Bool.true_and]

/-- Claim C5: on a sorted table, `find_range(start, stop)` yields exactly the
entries whose key satisfies `start ≤ key < stop` (no lower bound when
`start = None`, no upper bound when `stop = None`), in ascending key order;
the `stop` key itself is excluded, and `start > stop` yields the empty
sequence rather than an error. -/
theorem C5_find_range_spec [LinearOrder K] [Inhabited K] [Inhabited V]
    (t : List (Item K V)) (hs : TableSorted t) (start stop : Option K) :
    find_range t start stop =
      (t.filter (fun it => start_ok start it.key && before_stop stop it.key)).map
        (fun it => (it.key, it.value)) ∧
    ((find_range t start stop).map Prod.fst).Sorted (· < ·) ∧
    (∀ s p : K, p < s → find_range t (some s) (some p) = []) := by
  refine ⟨find_range_eq hs start stop, ?_, ?_⟩
  · rw [find_range_eq hs start stop, List.map_map]
    have hp : TableSorted (t.filter
        (fun it => start_ok start it.key && before_stop stop it.key)) :=
      hs.sublist (List.filter_sublist t)
    exact hp.map _ (fun _ _ h => h)
  · intro s p hps
    rw [find_range_eq hs (some s) (some p), List.map_eq_nil_iff,
      List.filter_eq_nil_iff]
    intro a _
    simp only [Bool.and_eq_true, not_and]
    intro hstart
    have h1 : s ≤ a.key := by simpa [start_ok] using hstart
    show ¬ decide (a.key < p) = true
    simp only [decide_eq_true_eq]
    intro h2
    exact absurd (lt_of_le_of_lt (le_trans h1 (le_of_lt h2)) hps)
      (lt_irrefl s)

/-- Claim C6: on a sorted table, `find_gt(k)` returns the entry with the least
key strictly greater than `k` when one exists (skipping one position past an
exact match), and `none` otherwise. -/
theorem C6_find_gt_spec [LinearOrder K] [Inhabited K] [Inhabited V]
    (t : List (Item K V)) (hs : TableSorted t) (k : K) :
    (find_gt t k = none ↔ ∀ it ∈ t, it.key ≤ k) ∧
    (∀ p : K × V, find_gt t k = some p →
      (⟨p.1, p.2⟩ : Item K V) ∈ t ∧ k < p.1 ∧
      ∀ it ∈ t, k < it.key → p.1 ≤ it.key) := by
  obtain ⟨h0, hlen, hlt, hge⟩ := find_index_full t hs k
  set j0 := find_index t k 0 ((t.length : Int) - 1) with hj0
  set jm : Int := if j0 < (t.length : Int) ∧ key_at t j0.toNat = k then j0 + 1
    else j0 with hjm
  have hdef : find_gt t k =
      if jm < (t.length : Int) then
        some (key_at t jm.toNat, value_at t jm.toNat)
      else none := by
    simp only [find_gt, ← hj0, ← hjm]
  have hjm0 : 0 ≤ jm := by rw [hjm]; split <;> omega
  have hjml : jm ≤ (t.length : Int) := by
    rw [hjm]; split
    · omega
    · omega
  have hA : ∀ i : Nat, (i : Int) < jm → i < t.length → key_at t i ≤ k := by
    intro i hi hi'
    rw [hjm] at hi
    split at hi
    · rename_i hmatch
      by_cases hij : (i : Int) < j0
      · exact le_of_lt (hlt i hij hi')
      · have : i = j0.toNat := by omega
        rw [this, hmatch.2]
    · exact le_of_lt (hlt i hi hi')
  have hB : ∀ i : Nat, jm ≤ (i : Int) → i < t.length → k < key_at t i := by
    intro i hi hi'
    rw [hjm] at hi
    split at hi
    · rename_i hmatch
      calc k = key_at t j0.toNat := hmatch.2.symm
        _ < key_at t i := sorted_key_lt hs (by omega) hi'
    · rename_i hmatch
      refine lt_of_le_of_ne (hge i hi hi') ?_
      intro hkk
      have hmem : k ∈ iter_keys t := mem_iter_keys_iff.mpr ⟨i, hi', hkk.symm⟩
      obtain ⟨hjlen, hjk⟩ := (found_iff hs k).mp hmem
      exact hmatch ⟨hjlen, hjk⟩
  constructor
  · constructor
    · intro hnone it hit
      have hjlen : ¬ jm < (t.length : Int) := by
        intro hc
        rw [hdef, if_pos hc] at hnone
        exact Option.some_ne_none _ hnone
      obtain ⟨i, hi, heq⟩ := List.mem_iff_getElem.mp hit
      rw [← heq, ← key_at_eq hi]
      exact hA i (by omega) hi
    · intro hall
      rw [hdef]
      rw [if_neg]
      intro hc
      have h1 : k < key_at t jm.toNat := hB jm.toNat (by omega) (by omega)
      have h2 : key_at t jm.toNat ≤ k := by
        have := hall t[jm.toNat] (List.getElem_mem (by omega))
        rwa [← key_at_eq (by omega : jm.toNat < t.length)] at this
      exact absurd h1 (not_lt.mpr h2)
  · intro p hp
    rw [hdef] at hp
    by_cases hc : jm < (t.length : Int)
    · rw [if_pos hc] at hp
      have hml : jm.toNat < t.length := by omega
      have hpp : (key_at t jm.toNat, value_at t jm.toNat) = p :=
        Option.some.inj hp
      have hp1 : p.1 = key_at t jm.toNat := by rw [← hpp]
      have hp2 : p.2 = value_at t jm.toNat := by rw [← hpp]
      refine ⟨?_, ?_, ?_⟩
      · have : (⟨p.1, p.2⟩ : Item K V) = t[jm.toNat] := by
          rw [hp1, hp2, key_at_eq hml, value_at_eq hml]
        rw [this]
        exact List.getElem_mem hml
      · rw [hp1]
        exact hB jm.toNat (by omega) hml
      · intro it hit hkit
        obtain ⟨i, hi, heq⟩ := List.mem_iff_getElem.mp hit
        have hmi : jm ≤ (i : Int) := by
          by_contra hcon
          have := hA i (by omega) hi
          rw [key_at_eq hi, heq] at this
          exact absurd hkit (not_lt.mpr this)
        rw [hp1, ← heq, ← key_at_eq hi]
        exact sorted_key_le hs (by omega) hi
    · rw [if_neg hc] at hp
      exact absurd hp.symm (Option.some_ne_none _)

theorem book_seat_nonneg (f : Flight) (hf : 0 ≤ f.seats_first)
    (hc : 0 ≤ f.seats_coach) (ct : String) :
    0 ≤ (book_seat f ct).1.seats_first ∧ 0 ≤ (book_seat f ct).1.seats_coach := by
  simp only [book_seat]
  split_ifs with h1 h2 <;> constructor <;> simp <;> omega

theorem book_seats_nonneg :
    ∀ (calls : List String) (f : Flight), 0 ≤ f.seats_first →
      0 ≤ f.seats_coach →
      0 ≤ (book_seats f calls).seats_first ∧
      0 ≤ (book_seats f calls).seats_coach
  | [], _, hf, hc => ⟨hf, hc⟩
  | ct :: calls, f, hf, hc => by
    obtain ⟨h1, h2⟩ := book_seat_nonneg f hf hc ct
    exact book_seats_nonneg calls (book_seat f ct).1 h1 h2

/-- Claim C8: with non-negative seat counters, `book_seat` succeeds exactly when
the class is `first` or `coach` and its counter is positive, in which case it
decrements only that counter by one; otherwise it returns `False` and changes
nothing; consequently no sequence of bookings drives a counter negative. -/
theorem C8_book_seat_spec (f : Flight) (hf : 0 ≤ f.seats_first)
    (hc : 0 ≤ f.seats_coach) (ct : String) :
    ((book_seat f ct).2 = true ↔
      (ct = "first" ∧ 0 < f.seats_first) ∨ (ct = "coach" ∧ 0 < f.seats_coach)) ∧
    (ct = "first" → 0 < f.seats_first →
      book_seat f ct = ({ f with seats_first := f.seats_first - 1 }, true)) ∧
    (ct = "coach" → 0 < f.seats_coach →
      book_seat f ct = ({ f with seats_coach := f.seats_coach - 1 }, true)) ∧
    ((book_seat f ct).2 = false → (book_seat f ct).1 = f) ∧
    (∀ calls : List String,
      0 ≤ (book_seats f calls).seats_first ∧
      0 ≤ (book_seats f calls).seats_coach) := by
  refine ⟨?_, ?_, ?_, ?_, fun calls => book_seats_nonneg calls f hf hc⟩
  · simp only [book_seat]
    split_ifs with h1 h2 <;> simp_all
  · intro h hpos
    simp only [book_seat]
    rw [if_pos ⟨h, hpos⟩]
  · intro h hpos
    simp only [book_seat]
    rw [if_neg (by rw [h]; simp), if_pos ⟨h, hpos⟩]
  · simp only [book_seat]
    split_ifs with h1 h2 <;> simp_all

/-- Claim C9: `cancel_booking` with class `first` or `coach` unconditionally
increments that counter and returns `True` — in particular the counter can be
driven above its initial value — and any other class returns `False` with no
change. -/
theorem C9_cancel_booking_spec (f : Flight) (ct : String) :
    (ct = "first" →
      cancel_booking f ct = ({ f with seats_first := f.seats_first + 1 }, true)) ∧
    (ct = "coach" →
      cancel_booking f ct = ({ f with seats_coach := f.seats_coach + 1 }, true)) ∧
    (ct ≠ "first" → ct ≠ "coach" → cancel_booking f ct = (f, false)) ∧
    f.seats_first < (cancel_booking f "first").1.seats_first := by
  refine ⟨?_, ?_, ?_, ?_⟩
  · intro h
    simp only [cancel_booking]
    rw [if_pos h]
  · intro h
    simp only [cancel_booking]
    rw [if_neg (by rw [h]; simp), if_pos h]
  · intro h1 h2
    simp only [cancel_booking]
    rw [if_neg h1, if_neg h2]
  · simp only [cancel_booking]
    simp

/-- Claim C10: `add_flight` on a key already stored keeps the database exactly
as it was: the stored flight wins and the new one is discarded (first writer
wins, unlike `setitem`, where the last write overwrites the value). -/
theorem C10_add_flight_keeps_existing (db : List (Item FKey Flight))
    (f g : Flight) (hg : getitem db (flight_key f) = some g) :
    add_flight db f = db ∧ getitem (add_flight db f) (flight_key f) = some g := by
  have hcon : contains db (flight_key f) = true := by
    rw [contains, hg]
    rfl
  simp only [add_flight]
  rw [if_pos hcon]
  exact ⟨rfl, hg⟩


/-- Witness for C1: the degenerate clause evaluated on a concrete table. -/
theorem C1_witness : find_index Wt (2 : Int) 5 3 = 3 + 1 :=
  (C1_find_index_locates Wt (by decide) 2).1 5 3 (by decide)

/-- Witness for C2: a concrete set/del sequence keeps the table sorted. -/
theorem C2_witness : TableSorted (apply_ops Wt [Op.set 2 20, Op.del 1]) :=
  (C2_invariants_preserved Wt (by decide) [Op.set 2 20, Op.del 1]).1

/-- Witness for C3: a concrete set/get round trip. -/
theorem C3_witness : getitem (setitem Wt 2 20) 2 = some 20 :=
  C3_set_get_roundtrip Wt (by decide) 2 20

/-- Witness for C4: failure of get on a concrete absent key. -/
theorem C4_witness : getitem Wt 2 = none ↔ (2 : Int) ∉ iter_keys Wt :=
  (C4_failure_iff_absent Wt (by decide) 2).1

/-- Witness for C5: the range query evaluated on a concrete table. -/
theorem C5_witness :
    find_range Wt (some 2) (some 4) =
      (Wt.filter (fun it => start_ok (some 2) it.key &&
        before_stop (some 4) it.key)).map (fun it => (it.key, it.value)) :=
  (C5_find_range_spec Wt (by decide) (some 2) (some 4)).1

/-- Witness for C6: find_gt past the maximum key of a concrete table. -/
theorem C6_witness : find_gt Wt 5 = none :=
  (C6_find_gt_spec Wt (by decide) 5).1.mpr (by decide)

/-- Witness for C7: descending iteration reversed on a concrete table. -/
theorem C7_witness : reversed_keys Wt = (iter_keys Wt).reverse :=
  (C7_iteration_orders Wt (by decide)).1

/-- Witness for C8: a concrete successful first-class booking. -/
theorem C8_witness :
    book_seat Wf "first" = ({ Wf with seats_first := Wf.seats_first - 1 }, true) :=
  (C8_book_seat_spec Wf (by decide) (by decide) "first").2.1 rfl (by decide)

/-- Witness for C9: a concrete first-class cancellation. -/
theorem C9_witness :
    cancel_booking Wf "first" =
      ({ Wf with seats_first := Wf.seats_first + 1 }, true) :=
  (C9_cancel_booking_spec Wf "first").1 rfl

/-- Witness for C10: adding a duplicate flight to a concrete database. -/
theorem C10_witness :
    add_flight Wdb Wf = Wdb ∧
      getitem (add_flight Wdb Wf) (flight_key Wf) = some Wf :=
  C10_add_flight_keeps_existing Wdb Wf Wf
    (@getitem_of_getElem FKey Flight _ _ _ Wdb (by decide) (flight_key Wf) Wf 0
      (by decide) rfl)
